import Mathlib

/-!
Verification of the cross-entropy-method (CEM) training core of
`Chapter01/06_neural_evolutionary_agent.ipynb`.

Shallow embedding conventions:
* observations are flattened numeric vectors, modelled as `List ℚ`
  (the notebook flattens the 8×8 grid with `np.array(obs).reshape(-1)`);
* rewards and percentiles are `ℚ` (Python floats, modelled exactly);
* a discrete action is a `ℕ` (the sampled categorical index); the label
  encoder additionally accepts any Python `int`, modelled as `ℤ`;
* fallible numpy operations (`np.percentile` range validation, fancy
  index assignment, tuple unpacking of `zip(*...)`) are modelled with
  `Except`/`Option`;
* the external collaborators (gym environment, Keras approximator,
  sampling randomness) are parameters of the embedding, exactly the
  interfaces the notebook consumes.
-/

namespace CEM

/-- Observation: a flattened numeric state vector (the notebook reshapes
the 8×8 grid observation to a flat vector before use). -/
abbrev Obs : Type := List ℚ

/-- Trajectory = namedtuple("Trajectory", ["obs", "actions", "reward"]):
per-step observations, per-step actions, and total episode reward. -/
structure Trajectory where
  obs : List Obs
  actions : List ℕ
  reward : ℚ
deriving DecidableEq

/-- The `np.percentile(a, q)` routine with its default linear-interpolation
method, as called by `gather_elite_xp`: sort the data, take the virtual
index `r = q/100 * (n-1)`, and linearly interpolate between the floor
index and the next index (clipped to the last position). -/
def npPercentile (xs : List ℚ) (q : ℚ) : ℚ :=
  let s := List.insertionSort (fun a b => a ≤ b) xs
  let n := s.length
  let r : ℚ := q / 100 * ((n : ℚ) - 1)
  let i : ℕ := (⌊r⌋).toNat
  let lo := s.getD i 0
  let hi := s.getD (min (i + 1) (n - 1)) 0
  lo + (r - (i : ℚ)) * (hi - lo)

/-- Modelled from the spec: the "standard interpolated percentile",
linear interpolation between closest ranks — with rank `h = q/100*(n-1)`
the threshold is `s⌊h⌋ + (h - ⌊h⌋) * (s⌈h⌉ - s⌊h⌋)` on the sorted data.
Used only to compare the spec's wording with `npPercentile`. -/
def percentileSpec (xs : List ℚ) (q : ℚ) : ℚ :=
  let s := List.insertionSort (fun a b => a ≤ b) xs
  let h : ℚ := q / 100 * ((s.length : ℚ) - 1)
  let lo := s.getD (⌊h⌋).toNat 0
  let hi := s.getD (⌈h⌉).toNat 0
  lo + (h - ⌊h⌋) * (hi - lo)

/-- Errors raised inside `gather_elite_xp`: `zip(*trajectories)` raises on
an empty trajectory list, and `np.percentile` validates that the
percentile lies in [0, 100]. -/
inductive GatherErr where
  | emptyZip : GatherErr
  | percentileRange : GatherErr
deriving DecidableEq

/-- gather_elite_xp(trajectories, elitism_criterion): unzip the
trajectories, compute the reward threshold with `np.percentile`, keep the
indices whose reward is `>= reward_threshold` (in enumeration order), and
flatten the kept trajectories' observations and actions. -/
def gather_elite_xp (trajectories : List Trajectory) (elitism_criterion : ℚ) :
    Except GatherErr (List Obs × List ℕ × ℚ) :=
  if trajectories.isEmpty then .error .emptyZip
  else if elitism_criterion < 0 ∨ 100 < elitism_criterion then .error .percentileRange
  else
    let trajectory_obs := trajectories.map (fun T => T.obs)
    let trajectory_actions := trajectories.map (fun T => T.actions)
    let trajectory_rewards := trajectories.map (fun T => T.reward)
    let reward_threshold := npPercentile trajectory_rewards elitism_criterion
    let indices := ((trajectory_rewards.enum).filter
        (fun iv => decide (reward_threshold ≤ iv.2))).map Prod.fst
    let elite_trajectory_obs := indices.map (fun i => trajectory_obs.getD i [])
    let elite_trajectory_actions := indices.map (fun i => trajectory_actions.getD i [])
    .ok (elite_trajectory_obs.flatten, elite_trajectory_actions.flatten, reward_threshold)

/-- gen_action_distribution(action_index, action_dim=5): build
`np.zeros(action_dim)` and assign `1` at `action_index`. Numpy raises
`IndexError` iff `action_index < -action_dim` or `action_index >=
action_dim` (modelled as `none`); a negative in-range index wraps to
`action_dim + action_index` (numpy negative indexing). The array dtype is
`type(action_index)` (a Python int); values are exact, modelled in ℚ. -/
def gen_action_distribution (action_index : ℤ) (action_dim : ℕ) : Option (List ℚ) :=
  if action_index < -(action_dim : ℤ) ∨ (action_dim : ℤ) ≤ action_index then none
  else
    let i : ℕ := (if action_index < 0 then action_index + action_dim else action_index).toNat
    some ((List.replicate action_dim (0 : ℚ)).set i 1)

/-- External environment interface consumed by the core: `reset` yields
the initial internal state and initial observation, `step` maps a state
and an action to the next state, next observation, step reward and done
flag, and `actionN` is the static `env.action_space.n` metadata. -/
structure EnvSpec (σ : Type) where
  reset : σ × Obs
  step : σ → ℕ → σ × Obs × ℚ × Bool
  actionN : ℕ

/-- Body of the `while not done` loop of `rollout`, with explicit fuel
(the source loop blocks forever on a non-terminating environment; `none`
models a run that has not terminated within `fuel` steps). The agent
passes its sampling/parameter state `α` through `getAction`. Each
iteration stores the pre-step observation and the sampled action, then
adds the step reward; the loop exits right after the step that reports
`done = true`, so it always runs at least one step (the source
initializes `done = False` before the loop). -/
def rolloutAux {σ α : Type} (env : EnvSpec σ) (getAction : α → Obs → ℕ × α) :
    ℕ → α → σ → Obs → Option (List Obs × List ℕ × ℚ × α)
  | 0, _, _, _ => none
  | fuel + 1, ag, s, o =>
    let a := getAction ag o
    let st := env.step s a.1
    if st.2.2.2 then some ([o], [a.1], st.2.2.1, a.2)
    else
      match rolloutAux env getAction fuel a.2 st.1 st.2.1 with
      | none => none
      | some (os, as, r, ag2) => some (o :: os, a.1 :: as, st.2.2.1 + r, ag2)

/-- rollout(agent, env): `obs = env.reset()`, run the episode loop, and
return `(observations, actions, episode_reward)` (plus the threaded agent
state). -/
def rollout {σ α : Type} (env : EnvSpec σ) (getAction : α → Obs → ℕ × α)
    (fuel : ℕ) (ag : α) : Option (List Obs × List ℕ × ℚ × α) :=
  rolloutAux env getAction fuel ag env.reset.1 env.reset.2

/-- The environment-interaction steps of the same episode that
`rolloutAux` rolls: each entry is `(pre-step observation, action, step
reward, next observation)`. Used to state what `rollout` stores. -/
def episodeTrace {σ α : Type} (env : EnvSpec σ) (getAction : α → Obs → ℕ × α) :
    ℕ → α → σ → Obs → Option (List (Obs × ℕ × ℚ × Obs) × α)
  | 0, _, _, _ => none
  | fuel + 1, ag, s, o =>
    let a := getAction ag o
    let st := env.step s a.1
    if st.2.2.2 then some ([(o, a.1, st.2.2.1, st.2.1)], a.2)
    else
      match episodeTrace env getAction fuel a.2 st.1 st.2.1 with
      | none => none
      | some (tr, ag2) => some ((o, a.1, st.2.2.1, st.2.1) :: tr, ag2)

/-- The `num_trajectory_rollouts` sequential rollouts of one training
epoch (the list comprehension in `train`). `.error k` means the `k`-th
rollout (0-based, after `k` completed ones) ran out of fuel. -/
def runRollouts {σ α : Type} (env : EnvSpec σ) (getAction : α → Obs → ℕ × α)
    (fuel : ℕ) : ℕ → α → Except ℕ (List Trajectory × α)
  | 0, ag => .ok ([], ag)
  | n + 1, ag =>
    match rollout env getAction fuel ag with
    | none => .error 0
    | some (os, as, r, ag1) =>
      match runRollouts env getAction fuel n ag1 with
      | .error k => .error (k + 1)
      | .ok (ts, ag2) => .ok (⟨os, as, r⟩ :: ts, ag2)

/-- Runtime errors of `train`, each carrying the number of episode
rollouts already completed when the error is raised: a rollout that never
terminates (fuel exhaustion in the model), the `zip(*trajectories)`
unpacking error on an empty trajectory list, the `np.percentile` range
validation error, and the numpy `IndexError` from
`gen_action_distribution`. -/
inductive TrainErr where
  | rolloutDiverged : ℕ → TrainErr
  | emptyUnpack : ℕ → TrainErr
  | percentileRange : ℕ → TrainErr
  | labelIndex : ℕ → TrainErr
deriving DecidableEq

/-- Observable outcome of `train`: the two per-epoch statistics lists the
source accumulates (and prints/plots), plus instrumentation the claims
need — the total number of episode rollouts performed and the log of
`agent.learn` calls (their observation batch and target-distribution
batch). -/
structure TrainResult where
  mean_rewards : List ℚ
  elite_reward_thresholds : List ℚ
  rolloutCount : ℕ
  fitCalls : List (List Obs × List (List ℚ))
deriving DecidableEq

/-- In `train` the Agent (and so its Brain, whose output layer is
`Dense(action_dim)`) is constructed as
`Agent(env.action_space.n, env.observation_space.shape)`: the
approximator's output dimension is the environment's action count. -/
def trainAgentActionDim {σ : Type} (env : EnvSpec σ) : ℕ := env.actionN

/-- Left-to-right traversal of a Python list comprehension whose body can
raise (first failure propagates), used for
`[gen_action_distribution(a.item()) for a in elite_actions]`. -/
def mapOption {α β : Type} (f : α → Option β) : List α → Option (List β)
  | [] => some []
  | x :: l =>
    match f x with
    | none => none
    | some y =>
      match mapOption f l with
      | none => none
      | some ys => some (y :: ys)

/-- One iteration of `for i in tqdm(range(num_epochs))` in `train`,
recursing on the remaining epoch count: roll `numRollouts` episodes,
unpack the batch rewards (raises on an empty list), select elites, encode
each elite action with `gen_action_distribution(a.item())` — the
`action_dim=5` default parameter, not the environment's action count —
call `agent.learn`, and append the epoch statistics. The `astype
("float16")` casts are precision casts, modelled as the identity. -/
def trainGo {σ α : Type} (env : EnvSpec σ) (getAction : α → Obs → ℕ × α)
    (learn : α → List Obs → List (List ℚ) → α) (fuel numRollouts : ℕ) (p : ℚ) :
    ℕ → α → TrainResult → Except TrainErr TrainResult
  | 0, _, acc => .ok acc
  | e + 1, ag, acc =>
    match runRollouts env getAction fuel numRollouts ag with
    | .error k => .error (.rolloutDiverged (acc.rolloutCount + k))
    | .ok (trajs, ag1) =>
      let cnt := acc.rolloutCount + trajs.length
      if trajs.isEmpty then .error (.emptyUnpack cnt)
      else
        match gather_elite_xp trajs p with
        | .error .emptyZip => .error (.emptyUnpack cnt)
        | .error .percentileRange => .error (.percentileRange cnt)
        | .ok (elite_obs, elite_actions, elite_threshold) =>
          match mapOption (fun (a : ℕ) => gen_action_distribution (a : ℤ) 5) elite_actions with
          | none => .error (.labelIndex cnt)
          | some elite_action_distributions =>
            let ag2 := learn ag1 elite_obs elite_action_distributions
            let mean := (trajs.map (fun T => T.reward)).sum / (trajs.length : ℚ)
            trainGo env getAction learn fuel numRollouts p e ag2
              ⟨acc.mean_rewards ++ [mean],
               acc.elite_reward_thresholds ++ [elite_threshold],
               cnt,
               acc.fitCalls ++ [(elite_obs, elite_action_distributions)]⟩

/-- train(env_id, num_trajectory_rollouts, elitism_criterion, num_epochs):
instantiate the environment and the agent (with the environment's action
count), then run the epoch loop starting from empty statistics. The
counts are Python ints (ℤ); `range(n)` iterates `n.toNat` times. The
external collaborators (environment, action sampling, approximator fit)
are parameters. -/
def train {σ α : Type} (env : EnvSpec σ) (getAction : α → Obs → ℕ × α)
    (learn : α → List Obs → List (List ℚ) → α) (agentInit : ℕ → α) (fuel : ℕ)
    (num_trajectory_rollouts : ℤ) (elitism_criterion : ℚ) (num_epochs : ℤ) :
    Except TrainErr TrainResult :=
  let agent := agentInit (trainAgentActionDim env)
  trainGo env getAction learn fuel num_trajectory_rollouts.toNat elitism_criterion
    num_epochs.toNat agent ⟨[], [], 0, []⟩

/-- One-step environment used for concrete witnesses: every step
immediately reports done with reward 3; the action space has 3 actions. -/
def envOneStep : EnvSpec Unit := ⟨((), [0]), fun _ _ => ((), [5], 3, true), 3⟩

/-- Deterministic agent model used for concrete witnesses: always picks
action 0 and keeps its trivial state. -/
def agentZero : Unit → Obs → ℕ × Unit := fun _ _ => (0, ())

/-- In a list sorted ascending, an earlier entry is at most a later one. -/
lemma sorted_getD_le (s : List ℚ) (hsorted : List.Sorted (fun a b => a ≤ b) s)
    {i j : ℕ} (hij : i ≤ j) (hj : j < s.length) : s.getD i 0 ≤ s.getD j 0 := by
  rcases eq_or_lt_of_le hij with rfl | hlt
  · exact le_refl _
  · have hi : i < s.length := lt_trans hlt hj
    rw [List.getD_eq_getElem s 0 hi, List.getD_eq_getElem s 0 hj]
    have h := hsorted.rel_get_of_lt (a := ⟨i, hi⟩) (b := ⟨j, hj⟩) (Fin.mk_lt_mk.mpr hlt)
    simpa using h

/-- A `getD` at a valid index is a member of the list. -/
lemma getD_mem_of_lt (s : List ℚ) {j : ℕ} (hj : j < s.length) : s.getD j 0 ∈ s := by
  rw [List.getD_eq_getElem s 0 hj]
  exact List.getElem_mem hj

/-- The virtual percentile rank `q/100 * (n-1)` lies in `[0, n-1]` for a
percentile `q` in `[0, 100]`. -/
lemma percentile_rank_bounds (n : ℕ) (q : ℚ) (hn : 1 ≤ n) (hq0 : 0 ≤ q)
    (hq1 : q ≤ 100) :
    0 ≤ q / 100 * ((n : ℚ) - 1) ∧ q / 100 * ((n : ℚ) - 1) ≤ (n : ℚ) - 1 := by
  have hn1 : (1 : ℚ) ≤ (n : ℚ) := by exact_mod_cast hn
  constructor
  · exact mul_nonneg (by positivity) (by linarith)
  · have hdiv : q / 100 ≤ 1 := div_le_one_of_le₀ hq1 (by norm_num)
    exact mul_le_of_le_one_left (by linarith) hdiv

/-- The floor of a rank bounded by `n - 1` gives an index at most `n - 1`. -/
lemma floor_toNat_le_pred (n : ℕ) (r : ℚ) (hr : r ≤ (n : ℚ) - 1) (hn : 1 ≤ n) :
    (⌊r⌋).toNat ≤ n - 1 := by
  have h1 : ⌊r⌋ ≤ (n : ℤ) - 1 := by
    have h2 : ((n : ℚ) - 1) = (((n : ℤ) - 1 : ℤ) : ℚ) := by push_cast; ring
    have h3 := Int.floor_le_floor (α := ℚ) hr
    rwa [h2, Int.floor_intCast] at h3
  omega

/-- For a non-empty population and a percentile in [0, 100], some element
of the population is at least the `np.percentile` threshold (the
threshold interpolates between two order statistics, hence is at most the
larger of the two). -/
lemma exists_mem_ge_npPercentile (xs : List ℚ) (q : ℚ) (hne : xs ≠ [])
    (hq0 : 0 ≤ q) (hq1 : q ≤ 100) : ∃ x ∈ xs, npPercentile xs q ≤ x := by
  simp only [npPercentile]
  set s := List.insertionSort (fun a b => a ≤ b) xs with hs
  set n := s.length with hn'
  set r : ℚ := q / 100 * ((n : ℚ) - 1) with hr'
  set i : ℕ := (⌊r⌋).toNat with hi'
  have hsorted : List.Sorted (fun a b => a ≤ b) s := List.sorted_insertionSort _ xs
  have hperm : s.Perm xs := List.perm_insertionSort _ xs
  have hn : 1 ≤ n := by
    rw [hn', hs, List.length_insertionSort]
    exact List.length_pos.mpr hne
  obtain ⟨hr0, hr1⟩ := percentile_rank_bounds n q hn hq0 hq1
  have hi1 : i ≤ n - 1 := floor_toNat_le_pred n r hr1 hn
  have hidx : min (i + 1) (n - 1) < n := by omega
  have hile : i ≤ min (i + 1) (n - 1) := by omega
  have hlohi : s.getD i 0 ≤ s.getD (min (i + 1) (n - 1)) 0 :=
    sorted_getD_le s hsorted hile hidx
  have hiz : ((i : ℕ) : ℤ) = ⌊r⌋ := by
    rw [hi']
    exact Int.toNat_of_nonneg (Int.floor_nonneg.mpr hr0)
  have hiq : ((i : ℕ) : ℚ) = ((⌊r⌋ : ℤ) : ℚ) := by
    rw [← hiz, Int.cast_natCast]
  have hfrac1 : r - (i : ℚ) ≤ 1 := by
    rw [hiq]
    have h := Int.lt_floor_add_one r
    linarith
  refine ⟨s.getD (min (i + 1) (n - 1)) 0, hperm.mem_iff.mp (getD_mem_of_lt s hidx), ?_⟩
  nlinarith [mul_le_mul_of_nonneg_right hfrac1 (sub_nonneg.mpr hlohi)]

/-- Degenerate population: when every element equals `c`, the
`np.percentile` threshold is `c` itself, for any percentile in [0, 100]. -/
lemma npPercentile_of_all_eq (xs : List ℚ) (q : ℚ) (c : ℚ) (hne : xs ≠ [])
    (hall : ∀ x ∈ xs, x = c) (hq0 : 0 ≤ q) (hq1 : q ≤ 100) :
    npPercentile xs q = c := by
  simp only [npPercentile]
  set s := List.insertionSort (fun a b => a ≤ b) xs with hs
  set n := s.length with hn'
  set r : ℚ := q / 100 * ((n : ℚ) - 1) with hr'
  set i : ℕ := (⌊r⌋).toNat with hi'
  have hperm : s.Perm xs := List.perm_insertionSort _ xs
  have hn : 1 ≤ n := by
    rw [hn', hs, List.length_insertionSort]
    exact List.length_pos.mpr hne
  obtain ⟨hr0, hr1⟩ := percentile_rank_bounds n q hn hq0 hq1
  have hi1 : i ≤ n - 1 := floor_toNat_le_pred n r hr1 hn
  have hilt : i < n := by omega
  have hidx : min (i + 1) (n - 1) < n := by omega
  have hlo : s.getD i 0 = c := hall _ (hperm.mem_iff.mp (getD_mem_of_lt s hilt))
  have hhi : s.getD (min (i + 1) (n - 1)) 0 = c :=
    hall _ (hperm.mem_iff.mp (getD_mem_of_lt s hidx))
  rw [hlo, hhi]
  ring

/-- The threshold computed by `np.percentile` with its default method
agrees with the spec's closest-ranks linear interpolation formula. -/
lemma npPercentile_eq_percentileSpec (xs : List ℚ) (q : ℚ) (hne : xs ≠ [])
    (hq0 : 0 ≤ q) (hq1 : q ≤ 100) : npPercentile xs q = percentileSpec xs q := by
  simp only [npPercentile, percentileSpec]
  set s := List.insertionSort (fun a b => a ≤ b) xs with hs
  set n := s.length with hn'
  set r : ℚ := q / 100 * ((n : ℚ) - 1) with hr'
  set i : ℕ := (⌊r⌋).toNat with hi'
  have hn : 1 ≤ n := by
    rw [hn', hs, List.length_insertionSort]
    exact List.length_pos.mpr hne
  obtain ⟨hr0, hr1⟩ := percentile_rank_bounds n q hn hq0 hq1
  have hiz : ((i : ℕ) : ℤ) = ⌊r⌋ := by
    rw [hi']
    exact Int.toNat_of_nonneg (Int.floor_nonneg.mpr hr0)
  have hiq : ((i : ℕ) : ℚ) = ((⌊r⌋ : ℤ) : ℚ) := by
    rw [← hiz, Int.cast_natCast]
  by_cases hfr : r = ((⌊r⌋ : ℤ) : ℚ)
  · rw [hiq, ← hfr]
    ring
  · have hlt : ((⌊r⌋ : ℤ) : ℚ) < r := lt_of_le_of_ne (Int.floor_le r) (Ne.symm hfr)
    have hceil : ⌈r⌉ = ⌊r⌋ + 1 :=
      le_antisymm (Int.ceil_le_floor_add_one r) (Int.add_one_le_ceil_iff.mpr hlt)
    have h2 : ((n : ℚ) - 1) = (((n : ℤ) - 1 : ℤ) : ℚ) := by push_cast; ring
    have hrn : r < (n : ℚ) - 1 := by
      rcases lt_or_eq_of_le hr1 with h | h
      · rw [hr']; exact h
      · exfalso
        apply hfr
        have hreq : r = (n : ℚ) - 1 := by rw [hr']; exact h
        have hfl2 : ⌊r⌋ = (n : ℤ) - 1 := by rw [hreq, h2, Int.floor_intCast]
        rw [hfl2, hreq]
        push_cast
        ring
    have hflt : ⌊r⌋ < (n : ℤ) - 1 := by
      have h3 : ((⌊r⌋ : ℤ) : ℚ) < (((n : ℤ) - 1 : ℤ) : ℚ) := by
        rw [← h2]
        exact lt_of_le_of_lt (Int.floor_le r) hrn
      exact_mod_cast h3
    have hfl0 : 0 ≤ ⌊r⌋ := Int.floor_nonneg.mpr hr0
    have hmin : min (i + 1) (n - 1) = i + 1 := by omega
    have hceilN : (⌈r⌉).toNat = i + 1 := by
      rw [hceil]
      omega
    rw [hmin, hceilN, hiq]

/-- The enumerate-filter-index pattern of `gather_elite_xp` (collect the
indices whose reward passes the threshold, then look each index up in a
parallel list) equals filtering the trajectories directly and projecting. -/
lemma enumFrom_filter_map_getD {β : Type} (t : ℚ) (g : Trajectory → β) (d : β)
    (l : List Trajectory) :
    ∀ (n : ℕ) (m : List β),
      (∀ j x, l.get? j = some x → m.getD (n + j) d = g x) →
      ((((l.map (fun T => T.reward)).enumFrom n).filter
          (fun iv => decide (t ≤ iv.2))).map Prod.fst).map (fun i => m.getD i d)
        = (l.filter (fun T => decide (t ≤ T.reward))).map g := by
  induction l with
  | nil => intro n m _; rfl
  | cons T l ih =>
    intro n m h
    have h0 : m.getD n d = g T := by
      have h1 := h 0 T rfl
      simpa using h1
    have hshift : ∀ j x, l.get? j = some x → m.getD (n + 1 + j) d = g x := by
      intro j x hx
      have h2 := h (j + 1) x (by simpa using hx)
      have h3 : n + (j + 1) = n + 1 + j := by omega
      rwa [h3] at h2
    have ihl := ih (n + 1) m hshift
    by_cases ht : t ≤ T.reward
    · simp only [List.map_cons, List.enumFrom_cons, List.filter_cons, ht, decide_True,
        if_true, List.map_cons]
      rw [h0, ihl]
    · simp only [List.map_cons, List.enumFrom_cons, List.filter_cons, ht, decide_False,
        if_false]
      exact ihl

/-- Characterization of `gather_elite_xp` on valid input: it succeeds and
returns the flattened observations and actions of exactly the
trajectories whose reward is at least the `np.percentile` threshold, in
input order, together with that threshold. -/
lemma gather_elite_xp_eq (trajs : List Trajectory) (p : ℚ) (hne : trajs ≠ [])
    (h0 : 0 ≤ p) (h1 : p ≤ 100) :
    gather_elite_xp trajs p =
      .ok ((((trajs.filter (fun T =>
            decide (npPercentile (trajs.map (fun T => T.reward)) p ≤ T.reward))).map
              (fun T => T.obs)).flatten,
        ((trajs.filter (fun T =>
            decide (npPercentile (trajs.map (fun T => T.reward)) p ≤ T.reward))).map
              (fun T => T.actions)).flatten,
        npPercentile (trajs.map (fun T => T.reward)) p)) := by
  unfold gather_elite_xp
  rw [if_neg (by simpa [List.isEmpty_iff] using hne), if_neg (by push_neg; exact ⟨h0, h1⟩)]
  have hobs : ∀ j x, trajs.get? j = some x →
      (trajs.map (fun T => T.obs)).getD (0 + j) [] = x.obs := by
    intro j x hx
    have h2 : (trajs.map (fun T => T.obs)).get? j = some x.obs := by
      rw [List.get?_map, hx]
      rfl
    rw [List.getD_eq_get?, Nat.zero_add, h2]
    rfl
  have hact : ∀ j x, trajs.get? j = some x →
      (trajs.map (fun T => T.actions)).getD (0 + j) [] = x.actions := by
    intro j x hx
    have h2 : (trajs.map (fun T => T.actions)).get? j = some x.actions := by
      rw [List.get?_map, hx]
      rfl
    rw [List.getD_eq_get?, Nat.zero_add, h2]
    rfl
  have e1 := enumFrom_filter_map_getD (npPercentile (trajs.map (fun T => T.reward)) p)
    (fun T => T.obs) [] trajs 0 (trajs.map (fun T => T.obs)) hobs
  have e2 := enumFrom_filter_map_getD (npPercentile (trajs.map (fun T => T.reward)) p)
    (fun T => T.actions) [] trajs 0 (trajs.map (fun T => T.actions)) hact
  simp only [List.enum_eq_enumFrom]
  rw [e1, e2]

/-- Setting index `i < d` of a length-`d` zero vector to 1 yields a
one-hot vector of length `d`. -/
lemma set_replicate_one_hot (d i : ℕ) (hi : i < d) :
    ((List.replicate d (0 : ℚ)).set i 1).length = d ∧
    ((List.replicate d (0 : ℚ)).set i 1).getD i 0 = 1 ∧
    ∀ j, j < d → j ≠ i → ((List.replicate d (0 : ℚ)).set i 1).getD j 0 = 0 := by
  have hlen : ((List.replicate d (0 : ℚ)).set i 1).length = d := by
    rw [List.length_set, List.length_replicate]
  refine ⟨hlen, ?_, ?_⟩
  · rw [List.getD_eq_getElem _ _ (by rw [hlen]; exact hi)]
    exact List.getElem_set_self _
  · intro j hj hne
    rw [List.getD_eq_getElem _ _ (by rw [hlen]; exact hj)]
    rw [List.getElem_set_ne (Ne.symm hne)]
    exact List.getElem_replicate _ _

/-- Every successful run of the episode loop corresponds to an
environment-interaction trace: the stored observations are exactly the
pre-step observations of the trace, the stored actions its actions, and
the episode reward the sum of its per-step rewards. -/
lemma rolloutAux_eq_episodeTrace {σ α : Type} (env : EnvSpec σ)
    (getAction : α → Obs → ℕ × α) :
    ∀ (fuel : ℕ) (ag : α) (s : σ) (o : Obs) (os : List Obs) (as : List ℕ)
      (r : ℚ) (ag2 : α),
      rolloutAux env getAction fuel ag s o = some (os, as, r, ag2) →
      ∃ tr, episodeTrace env getAction fuel ag s o = some (tr, ag2) ∧
        os = tr.map (fun st => st.1) ∧ as = tr.map (fun st => st.2.1) ∧
        r = (tr.map (fun st => st.2.2.1)).sum := by
  intro fuel
  induction fuel with
  | zero =>
    intro ag s o os as r ag2 h
    simp [rolloutAux] at h
  | succ fuel ih =>
    intro ag s o os as r ag2 h
    simp only [rolloutAux] at h
    simp only [episodeTrace]
    by_cases hd : (env.step s (getAction ag o).1).2.2.2 = true
    · rw [if_pos hd] at h
      rw [if_pos hd]
      simp only [Option.some.injEq, Prod.mk.injEq] at h
      obtain ⟨h1, h2, h3, h4⟩ := h
      refine ⟨[(o, (getAction ag o).1, (env.step s (getAction ag o).1).2.2.1,
        (env.step s (getAction ag o).1).2.1)], by rw [h4], ?_, ?_, ?_⟩
      · rw [← h1]
        rfl
      · rw [← h2]
        rfl
      · rw [← h3]
        simp
    · rw [if_neg hd] at h
      rw [if_neg hd]
      rcases hrec : rolloutAux env getAction fuel (getAction ag o).2
          (env.step s (getAction ag o).1).1 (env.step s (getAction ag o).1).2.1 with _ | val
      · rw [hrec] at h
        simp at h
      · obtain ⟨os1, as1, r1, agx⟩ := val
        rw [hrec] at h
        simp only [Option.some.injEq, Prod.mk.injEq] at h
        obtain ⟨h1, h2, h3, h4⟩ := h
        obtain ⟨tr, htr, ho, ha, hr⟩ := ih (getAction ag o).2
          (env.step s (getAction ag o).1).1 (env.step s (getAction ag o).1).2.1
          os1 as1 r1 agx hrec
        rw [htr]
        refine ⟨(o, (getAction ag o).1, (env.step s (getAction ag o).1).2.2.1,
          (env.step s (getAction ag o).1).2.1) :: tr, by rw [h4], ?_, ?_, ?_⟩
        · rw [← h1, List.map_cons, ← ho]
        · rw [← h2, List.map_cons, ← ha]
        · rw [← h3, List.map_cons, List.sum_cons, ← hr]

/-- With a non-empty population and a percentile outside [0, 100],
`gather_elite_xp` raises the `np.percentile` range error. -/
lemma gather_elite_xp_error_of_percentile (trajs : List Trajectory) (p : ℚ)
    (hne : trajs ≠ []) (hp : p < 0 ∨ 100 < p) :
    gather_elite_xp trajs p = .error .percentileRange := by
  unfold gather_elite_xp
  rw [if_neg (by simpa [List.isEmpty_iff] using hne), if_pos hp]

/-- A successful epoch of rollouts returns exactly the requested number
of trajectories. -/
lemma runRollouts_ok_length {σ α : Type} (env : EnvSpec σ)
    (getAction : α → Obs → ℕ × α) (fuel : ℕ) :
    ∀ (n : ℕ) (ag : α) (ts : List Trajectory) (ag2 : α),
      runRollouts env getAction fuel n ag = .ok (ts, ag2) → ts.length = n := by
  intro n
  induction n with
  | zero =>
    intro ag ts ag2 h
    simp only [runRollouts, Except.ok.injEq, Prod.mk.injEq] at h
    rw [← h.1]
    rfl
  | succ n ih =>
    intro ag ts ag2 h
    simp only [runRollouts] at h
    cases hroll : rollout env getAction fuel ag with
    | none => simp [hroll] at h
    | some val =>
      obtain ⟨os, as, r, ag1⟩ := val
      simp only [hroll] at h
      cases hrec : runRollouts env getAction fuel n ag1 with
      | error k => simp [hrec] at h
      | ok val2 =>
        obtain ⟨ts1, ag3⟩ := val2
        simp only [hrec, Except.ok.injEq, Prod.mk.injEq] at h
        rw [← h.1, List.length_cons, ih ag1 ts1 ag3 hrec]

/-- Every vector produced by a successful traversal came from the mapped
function. -/
lemma mapOption_mem {α β : Type} (f : α → Option β) :
    ∀ (l : List α) (ys : List β), mapOption f l = some ys →
      ∀ y ∈ ys, ∃ x, f x = some y := by
  intro l
  induction l with
  | nil =>
    intro ys h y hy
    simp only [mapOption, Option.some.injEq] at h
    rw [← h] at hy
    simp at hy
  | cons x l ih =>
    intro ys h y hy
    simp only [mapOption] at h
    cases hfx : f x with
    | none => simp [hfx] at h
    | some y1 =>
      simp only [hfx] at h
      cases hrest : mapOption f l with
      | none => simp [hrest] at h
      | some ys1 =>
        simp only [hrest, Option.some.injEq] at h
        rw [← h] at hy
        rcases List.mem_cons.mp hy with rfl | hmem
        · exact ⟨x, hfx⟩
        · exact ih ys1 hrest y hmem

/-- A successfully encoded action distribution has length `action_dim`. -/
lemma gen_action_distribution_length (a : ℤ) (d : ℕ) (v : List ℚ)
    (h : gen_action_distribution a d = some v) : v.length = d := by
  unfold gen_action_distribution at h
  by_cases hc : a < -(d : ℤ) ∨ (d : ℤ) ≤ a
  · rw [if_pos hc] at h
    simp at h
  · rw [if_neg hc] at h
    simp only [Option.some.injEq] at h
    rw [← h, List.length_set, List.length_replicate]

/-- Invariant of the epoch loop: every target distribution recorded in a
fit call has length 5 (the `gen_action_distribution` default). -/
lemma trainGo_fitCalls_label_length {σ α : Type} (env : EnvSpec σ)
    (getAction : α → Obs → ℕ × α) (learn : α → List Obs → List (List ℚ) → α)
    (fuel numRollouts : ℕ) (p : ℚ) :
    ∀ (e : ℕ) (ag : α) (acc : TrainResult) (res : TrainResult),
      trainGo env getAction learn fuel numRollouts p e ag acc = .ok res →
      (∀ b ∈ acc.fitCalls, ∀ dist ∈ b.2, dist.length = 5) →
      ∀ b ∈ res.fitCalls, ∀ dist ∈ b.2, dist.length = 5 := by
  intro e
  induction e with
  | zero =>
    intro ag acc res h hacc
    simp only [trainGo, Except.ok.injEq] at h
    rw [← h]
    exact hacc
  | succ e ih =>
    intro ag acc res h hacc
    simp only [trainGo] at h
    cases hroll : runRollouts env getAction fuel numRollouts ag with
    | error k => simp [hroll] at h
    | ok val =>
      obtain ⟨trajs, ag1⟩ := val
      simp only [hroll] at h
      by_cases hemp : trajs.isEmpty
      · rw [if_pos hemp] at h
        simp at h
      · rw [if_neg hemp] at h
        cases hg : gather_elite_xp trajs p with
        | error ge =>
          cases ge <;> simp [hg] at h
        | ok val2 =>
          obtain ⟨elite_obs, elite_actions, elite_threshold⟩ := val2
          simp only [hg] at h
          cases hm : mapOption (fun (a : ℕ) => gen_action_distribution (a : ℤ) 5)
              elite_actions with
          | none => simp [hm] at h
          | some labels =>
            simp only [hm] at h
            apply ih _ _ res h
            intro b hb dist hd
            rcases List.mem_append.mp hb with hb1 | hb2
            · exact hacc b hb1 dist hd
            · have hbeq : b = (elite_obs, labels) := by simpa using hb2
              rw [hbeq] at hd
              obtain ⟨x, hx⟩ := mapOption_mem _ elite_actions labels hm dist hd
              exact gen_action_distribution_length _ 5 _ hx

/-- C1: for every non-empty trajectory list and percentile in [0, 100],
`gather_elite_xp` returns the linear-interpolation percentile of the
rewards as threshold (and that threshold equals the spec's closest-ranks
interpolated percentile), keeps exactly the trajectories whose reward is
`>=` the threshold (flattening their observations and actions in order),
and a trajectory is in the kept set iff its reward meets the threshold,
so every trajectory with reward `<` the threshold is excluded. -/
theorem C1_select_elites_threshold_and_filter (trajs : List Trajectory) (p : ℚ)
    (hne : trajs ≠ []) (h0 : 0 ≤ p) (h1 : p ≤ 100) :
    gather_elite_xp trajs p =
      .ok ((((trajs.filter (fun T =>
            decide (npPercentile (trajs.map (fun T => T.reward)) p ≤ T.reward))).map
              (fun T => T.obs)).flatten,
        ((trajs.filter (fun T =>
            decide (npPercentile (trajs.map (fun T => T.reward)) p ≤ T.reward))).map
              (fun T => T.actions)).flatten,
        npPercentile (trajs.map (fun T => T.reward)) p))
    ∧ npPercentile (trajs.map (fun T => T.reward)) p =
        percentileSpec (trajs.map (fun T => T.reward)) p
    ∧ (∀ T, T ∈ trajs.filter (fun T =>
          decide (npPercentile (trajs.map (fun T => T.reward)) p ≤ T.reward)) ↔
        T ∈ trajs ∧ npPercentile (trajs.map (fun T => T.reward)) p ≤ T.reward) := by
  have hmapne : trajs.map (fun T => T.reward) ≠ [] := by
    intro hEq
    exact hne (List.map_eq_nil.mp hEq)
  refine ⟨gather_elite_xp_eq trajs p hne h0 h1, ?_, ?_⟩
  · exact npPercentile_eq_percentileSpec _ p hmapne h0 h1
  · intro T
    simp [List.mem_filter]

/-- Witness for C1 at the one-trajectory population with reward 4 and
percentile 50: the single trajectory is kept and the threshold is 4. -/
theorem C1_select_elites_threshold_and_filter_witness :
    gather_elite_xp [⟨[[1]], [2], (4 : ℚ)⟩] 50 = .ok ([[1]], [2], 4) := by
  have h := (C1_select_elites_threshold_and_filter [⟨[[1]], [2], 4⟩] 50 (by simp)
    (by norm_num) (by norm_num)).1
  rw [h]
  norm_num [npPercentile, List.insertionSort, List.orderedInsert, List.filter]

/-- C2 counterexample: the action index -1 is outside `[0, 5)`, yet
`gen_action_distribution(-1, 5)` neither fails nor is undefined — numpy
negative indexing makes it deterministically succeed, returning the
vector with the 1 at index 4. -/
theorem C2_encode_counterexample :
    gen_action_distribution (-1) 5 = some [0, 0, 0, 0, 1] ∧
      ¬ (0 ≤ (-1 : ℤ) ∧ (-1 : ℤ) < 5) := by
  constructor
  · norm_num [gen_action_distribution]
    rfl
  · norm_num

/-- C2 (amended): for `a` in `[0, action_dim)`,
`gen_action_distribution(a, action_dim)` returns a vector of length
`action_dim` with a 1 at index `a` and 0 elsewhere. For
`a >= action_dim` or `a < -action_dim` it fails (numpy `IndexError`). For
`a` in `[-action_dim, 0)` it does not fail: it silently succeeds with the
1 placed at index `action_dim + a` (numpy negative indexing). -/
theorem C2_encode_one_hot_amended (a : ℤ) (d : ℕ) :
    (0 ≤ a → a < (d : ℤ) →
      ∃ v, gen_action_distribution a d = some v ∧ v.length = d ∧
        v.getD a.toNat 0 = 1 ∧ ∀ j, j < d → j ≠ a.toNat → v.getD j 0 = 0)
    ∧ (((d : ℤ) ≤ a ∨ a < -(d : ℤ)) → gen_action_distribution a d = none)
    ∧ (-(d : ℤ) ≤ a → a < 0 →
      ∃ v, gen_action_distribution a d = some v ∧ v.length = d ∧
        v.getD (a + d).toNat 0 = 1 ∧
        ∀ j, j < d → j ≠ (a + d).toNat → v.getD j 0 = 0) := by
  refine ⟨?_, ?_, ?_⟩
  · intro h0 hd
    rw [gen_action_distribution, if_neg (by omega)]
    have hneg : ¬ a < 0 := by omega
    rw [if_neg hneg]
    exact ⟨_, rfl, set_replicate_one_hot d a.toNat (by omega)⟩
  · intro h
    rw [gen_action_distribution, if_pos (by omega)]
  · intro hlow hneg
    rw [gen_action_distribution, if_neg (by omega), if_pos hneg]
    exact ⟨_, rfl, set_replicate_one_hot d (a + d).toNat (by omega)⟩

/-- Witness for the amended C2 at `a = 2`, `action_dim = 5`: the in-range
branch produces a length-5 one-hot vector with the 1 at index 2. -/
theorem C2_encode_one_hot_amended_witness :
    ∃ v, gen_action_distribution 2 5 = some v ∧ v.length = 5 ∧
      v.getD (2 : ℤ).toNat 0 = 1 ∧ ∀ j, j < 5 → j ≠ (2 : ℤ).toNat → v.getD j 0 = 0 :=
  (C2_encode_one_hot_amended 2 5).1 (by norm_num) (by norm_num)

/-- C3: for every terminating episode, the trajectory returned by
`rollout` stores, at each step, the pre-step observation (the one the
action was chosen from) — the observation and action lists are the
projections of the interaction trace — the two lists have equal length,
and the returned reward is the sum of the per-step rewards. -/
theorem C3_rollout_prestep_obs_and_reward_sum {σ α : Type} (env : EnvSpec σ)
    (getAction : α → Obs → ℕ × α) (fuel : ℕ) (ag : α) (os : List Obs)
    (as : List ℕ) (r : ℚ) (ag2 : α)
    (h : rollout env getAction fuel ag = some (os, as, r, ag2)) :
    ∃ tr, episodeTrace env getAction fuel ag env.reset.1 env.reset.2 =
        some (tr, ag2) ∧
      os = tr.map (fun st => st.1) ∧
      as = tr.map (fun st => st.2.1) ∧
      r = (tr.map (fun st => st.2.2.1)).sum ∧
      os.length = as.length := by
  obtain ⟨tr, h1, h2, h3, h4⟩ :=
    rolloutAux_eq_episodeTrace env getAction fuel ag env.reset.1 env.reset.2
      os as r ag2 h
  refine ⟨tr, h1, h2, h3, h4, ?_⟩
  rw [h2, h3]
  simp

/-- Witness for C3 on the one-step environment: the rollout terminates
and the stored observation is the pre-step (reset) observation. -/
theorem C3_rollout_prestep_obs_and_reward_sum_witness :
    rollout envOneStep agentZero 1 () = some ([[0]], [0], 3, ()) ∧
      (∃ tr, episodeTrace envOneStep agentZero 1 () envOneStep.reset.1
            envOneStep.reset.2 = some (tr, ()) ∧
        [[0]] = tr.map (fun st => st.1) ∧
        ([0] : List ℕ) = tr.map (fun st => st.2.1) ∧
        (3 : ℚ) = (tr.map (fun st => st.2.2.1)).sum ∧
        ([[0]] : List Obs).length = ([0] : List ℕ).length) :=
  ⟨rfl, C3_rollout_prestep_obs_and_reward_sum envOneStep agentZero 1 ()
    [[0]] [0] 3 () rfl⟩

/-- C4: for every non-empty trajectory population and percentile in
[0, 100], `gather_elite_xp` succeeds, the elite set (the trajectories
whose reward meets the threshold) is non-empty, and in the degenerate
case where all rewards equal `c` the threshold is `c` and the full
population is elite. -/
theorem C4_elite_nonempty_and_degenerate (trajs : List Trajectory) (p : ℚ)
    (hne : trajs ≠ []) (h0 : 0 ≤ p) (h1 : p ≤ 100) :
    (∃ obsB actB, gather_elite_xp trajs p =
        .ok (obsB, actB, npPercentile (trajs.map (fun T => T.reward)) p))
    ∧ trajs.filter (fun T =>
        decide (npPercentile (trajs.map (fun T => T.reward)) p ≤ T.reward)) ≠ []
    ∧ (∀ c, (∀ T ∈ trajs, T.reward = c) →
        npPercentile (trajs.map (fun T => T.reward)) p = c ∧
        trajs.filter (fun T =>
          decide (npPercentile (trajs.map (fun T => T.reward)) p ≤ T.reward)) = trajs) := by
  have hmapne : trajs.map (fun T => T.reward) ≠ [] := by
    intro hEq
    exact hne (List.map_eq_nil.mp hEq)
  refine ⟨⟨_, _, gather_elite_xp_eq trajs p hne h0 h1⟩, ?_, ?_⟩
  · obtain ⟨x, hx, hle⟩ := exists_mem_ge_npPercentile _ p hmapne h0 h1
    obtain ⟨T, hT, hTx⟩ := List.mem_map.mp hx
    refine List.ne_nil_of_mem (List.mem_filter.mpr ⟨hT, ?_⟩)
    rw [decide_eq_true_eq, hTx]
    exact hle
  · intro c hc
    have hall : ∀ x ∈ trajs.map (fun T => T.reward), x = c := by
      intro x hx
      obtain ⟨T, hT, hTx⟩ := List.mem_map.mp hx
      rw [← hTx]
      exact hc T hT
    have ht := npPercentile_of_all_eq _ p c hmapne hall h0 h1
    refine ⟨ht, List.filter_eq_self.mpr ?_⟩
    intro T hT
    rw [decide_eq_true_eq, ht, hc T hT]

/-- Witness for C4 at the two-trajectory population with equal rewards 4
and percentile 70: the elite set is non-empty. -/
theorem C4_elite_nonempty_and_degenerate_witness :
    ([⟨[[1]], [2], (4 : ℚ)⟩, ⟨[[9]], [3], 4⟩] : List Trajectory).filter
      (fun T => decide (npPercentile
        (([⟨[[1]], [2], (4 : ℚ)⟩, ⟨[[9]], [3], 4⟩] : List Trajectory).map
          (fun T => T.reward)) 70 ≤ T.reward)) ≠ [] :=
  (C4_elite_nonempty_and_degenerate [⟨[[1]], [2], 4⟩, ⟨[[9]], [3], 4⟩] 70
    (by simp) (by norm_num) (by norm_num)).2.1

/-- C5: on three trajectories with rewards [1, 5, 9] and percentile 70
the threshold is 6.6 and only the reward-9 trajectory is elite: the
returned batch is exactly that trajectory's observations and actions. -/
theorem C5_example_scenario :
    gather_elite_xp
        [⟨[[10]], [0], 1⟩, ⟨[[20]], [1], 5⟩, ⟨[[30]], [2], 9⟩] 70 =
      .ok ([[30]], [2], 6.6)
    ∧ npPercentile [1, 5, 9] 70 = 6.6
    ∧ ([⟨[[10]], [0], 1⟩, ⟨[[20]], [1], 5⟩, ⟨[[30]], [2], (9 : ℚ)⟩] : List Trajectory).filter
        (fun T => decide ((6.6 : ℚ) ≤ T.reward)) = [⟨[[30]], [2], 9⟩] := by
  refine ⟨?_, ?_, ?_⟩
  · norm_num [gather_elite_xp, npPercentile, List.insertionSort, List.orderedInsert,
      List.enum, List.enumFrom, List.filter, List.flatten]
  · norm_num [npPercentile, List.insertionSort, List.orderedInsert]
  · norm_num [List.filter]

/-- C6: when both trajectories of a two-element population are elite, the
returned batch is the concatenation of the first trajectory's
observations (and actions) with the second's, in input order with each
trajectory's internal step order intact. -/
theorem C6_concatenation_order (T1 T2 : Trajectory) (p : ℚ)
    (h0 : 0 ≤ p) (h1 : p ≤ 100)
    (e1 : npPercentile [T1.reward, T2.reward] p ≤ T1.reward)
    (e2 : npPercentile [T1.reward, T2.reward] p ≤ T2.reward) :
    gather_elite_xp [T1, T2] p =
      .ok (T1.obs ++ T2.obs, T1.actions ++ T2.actions,
        npPercentile [T1.reward, T2.reward] p) := by
  have h := gather_elite_xp_eq [T1, T2] p (by simp) h0 h1
  simp only [List.map_cons, List.map_nil] at h
  rw [h]
  simp [List.filter, e1, e2]

/-- Witness for C6 at two equal-reward trajectories (reward 3, percentile
70, threshold 3): both are elite and the batch is their concatenation. -/
theorem C6_concatenation_order_witness :
    gather_elite_xp [⟨[[1]], [0], (3 : ℚ)⟩, ⟨[[2], [3]], [1, 2], 3⟩] 70 =
      .ok ([[1]] ++ [[2], [3]], [0] ++ [1, 2], npPercentile [3, 3] 70) :=
  C6_concatenation_order ⟨[[1]], [0], 3⟩ ⟨[[2], [3]], [1, 2], 3⟩ 70
    (by norm_num) (by norm_num)
    (by norm_num [npPercentile, List.insertionSort, List.orderedInsert])
    (by norm_num [npPercentile, List.insertionSort, List.orderedInsert])

/-- C7: training with `num_epochs = 0` performs zero episode rollouts,
never invokes the approximator's fit operation, and the epoch-statistics
history `train` accumulates (its return value in the embedding; the
source only prints and plots it) is empty. -/
theorem C7_zero_epochs_no_work {σ α : Type} (env : EnvSpec σ)
    (getAction : α → Obs → ℕ × α) (learn : α → List Obs → List (List ℚ) → α)
    (agentInit : ℕ → α) (fuel : ℕ) (num_trajectory_rollouts : ℤ) (p : ℚ) :
    train env getAction learn agentInit fuel num_trajectory_rollouts p 0 =
      .ok ⟨[], [], 0, []⟩ := rfl

/-- C8 counterexample: `num_epochs = 0` is non-positive — per the claim a
fatal configuration error must be reported — but `train` silently
succeeds with an empty run and reports no error. -/
theorem C8_config_validation_counterexample :
    train envOneStep agentZero (fun ag _ _ => ag) (fun _ => ()) 1 1 70 0 =
      .ok ⟨[], [], 0, []⟩ ∧ ¬ (0 < (0 : ℤ)) :=
  ⟨rfl, by norm_num⟩

/-- C8 (amended): `train` performs no configuration validation before
rolling out. A percentile outside [0, 100] raises only inside the first
epoch, after that epoch's rollouts have all completed (the error carries
the completed-rollout count, which equals `num_trajectory_rollouts` and
is non-zero); a non-positive `num_epochs` is silently accepted (see the
counterexample); the agent is always constructed with the environment's
own action count, so no action-dim mismatch check exists. -/
theorem C8_amended_late_percentile_error {σ α : Type} (env : EnvSpec σ)
    (getAction : α → Obs → ℕ × α) (learn : α → List Obs → List (List ℚ) → α)
    (agentInit : ℕ → α) (fuel : ℕ) (nr ne : ℤ) (p : ℚ)
    (hp : p < 0 ∨ 100 < p) (hne : 1 ≤ ne) (trajs : List Trajectory) (ag1 : α)
    (hroll : runRollouts env getAction fuel nr.toNat
        (agentInit (trainAgentActionDim env)) = .ok (trajs, ag1))
    (htne : trajs ≠ []) :
    train env getAction learn agentInit fuel nr p ne =
      .error (.percentileRange trajs.length) ∧
      trajs.length = nr.toNat ∧ trajs.length ≠ 0 := by
  have hlen := runRollouts_ok_length env getAction fuel nr.toNat _ trajs ag1 hroll
  refine ⟨?_, hlen, by simpa using htne⟩
  simp only [train]
  obtain ⟨k, hk⟩ : ∃ k, ne.toNat = k + 1 := ⟨ne.toNat - 1, by omega⟩
  rw [hk]
  have hemp : trajs.isEmpty = false := by
    cases trajs with
    | nil => exact absurd rfl htne
    | cons a l => rfl
  have hg := gather_elite_xp_error_of_percentile trajs p htne hp
  simp [trainGo, hroll, hemp, hg]

/-- Witness for the amended C8: percentile 150 with one rollout and one
epoch — the error surfaces only after the rollout completed. -/
theorem C8_amended_late_percentile_error_witness :
    ((150 : ℚ) < 0 ∨ 100 < (150 : ℚ)) ∧
    (train envOneStep agentZero (fun ag _ _ => ag) (fun _ => ()) 1 1 150 1 =
        .error (.percentileRange ([(⟨[[0]], [0], 3⟩ : Trajectory)]).length) ∧
      ([(⟨[[0]], [0], 3⟩ : Trajectory)]).length = (1 : ℤ).toNat ∧
      ([(⟨[[0]], [0], 3⟩ : Trajectory)]).length ≠ 0) :=
  ⟨by norm_num,
   C8_amended_late_percentile_error envOneStep agentZero (fun ag _ _ => ag)
     (fun _ => ()) 1 1 1 150 (by norm_num) (by norm_num) [⟨[[0]], [0], 3⟩] ()
     rfl (by simp)⟩

/-- C10: every target distribution `train` passes to `agent.learn` has
length 5, because `gen_action_distribution` is invoked with its default
`action_dim = 5` rather than the environment's action count — while the
agent's approximator is built with output dimension `env.action_space.n`;
so for any environment whose action count differs from 5 the label length
does not match the approximator's output dimension. -/
theorem C10_labels_length_five {σ α : Type} (env : EnvSpec σ)
    (getAction : α → Obs → ℕ × α) (learn : α → List Obs → List (List ℚ) → α)
    (agentInit : ℕ → α) (fuel : ℕ) (nr ne : ℤ) (p : ℚ) (res : TrainResult)
    (h : train env getAction learn agentInit fuel nr p ne = .ok res)
    (b : List Obs × List (List ℚ)) (hb : b ∈ res.fitCalls)
    (dist : List ℚ) (hd : dist ∈ b.2) :
    dist.length = 5 ∧
      (env.actionN ≠ 5 → dist.length ≠ trainAgentActionDim env) := by
  simp only [train] at h
  have h5 : dist.length = 5 :=
    trainGo_fitCalls_label_length env getAction learn fuel nr.toNat p ne.toNat
      _ _ res h (by intro b hb1 dist1 hd1; simp at hb1) b hb dist hd
  refine ⟨h5, ?_⟩
  intro hne5
  rw [h5]
  exact Ne.symm hne5

/-- Witness for C10 on the one-step environment with 3 actions: the run
reaches one fit call whose single label has length 5 while the
approximator output dimension is 3. -/
theorem C10_labels_length_five_witness :
    train envOneStep agentZero (fun ag _ _ => ag) (fun _ => ()) 1 1 70 1 =
      .ok ⟨[3], [3], 1, [([[0]], [[1, 0, 0, 0, 0]])]⟩ ∧
    (([1, 0, 0, 0, 0] : List ℚ).length = 5 ∧
      (envOneStep.actionN ≠ 5 →
        ([1, 0, 0, 0, 0] : List ℚ).length ≠ trainAgentActionDim envOneStep)) := by
  have h : train envOneStep agentZero (fun ag _ _ => ag) (fun _ => ()) 1 1 70 1 =
      .ok ⟨[3], [3], 1, [([[0]], [[1, 0, 0, 0, 0]])]⟩ := by
    norm_num [train, trainGo, runRollouts, rollout, rolloutAux, gather_elite_xp,
      npPercentile, mapOption, gen_action_distribution, envOneStep, agentZero,
      trainAgentActionDim, List.insertionSort, List.orderedInsert, List.enum,
      List.enumFrom, List.filter, List.flatten]
    rfl
  exact ⟨h, C10_labels_length_five envOneStep agentZero (fun ag _ _ => ag)
    (fun _ => ()) 1 1 1 70 ⟨[3], [3], 1, [([[0]], [[1, 0, 0, 0, 0]])]⟩ h
    ([[0]], [[1, 0, 0, 0, 0]]) (by simp) [1, 0, 0, 0, 0] (by simp)⟩

end CEM
